import Mathlib

/-!
Verification of the experience-replay subsystem and learning loop of a
DQN agent (DeepAgent / DemonAttack repository).

The Python sources are shallowly embedded:
* `ExperienceReplay` (DeepAgent/utils/buffer.py): a `deque(maxlen=size)`
  store with uniform index sampling `np.random.randint(0, size)`.
* `PrioritizedExperienceReplay` (same file): list store with a parallel
  numpy priority array, min-priority eviction and priority-proportional
  sampling without replacement.
* The learner target, epsilon schedule and training-loop cadence of
  `unit_test (informal way)/Bin/dqn_v2.py`.

Machine floats are modelled by `ℚ`; the float exponent `** prob_alpha`
is abstracted as a function parameter `pw`.  Randomness is modelled by
oracle streams: `np.random.randint(0, n)` consumes one oracle value and
returns it reduced `% n`, and `np.random.choice(..., replace=False)`
picks, step by step, an oracle-chosen position among the remaining
indices.  Methods are embedded in state-passing style: `*_run`
functions return the method result together with the post-state, so
that frame conditions are visible.
-/

namespace DeepAgent

/-- One stored transition (interfaces/IBaseBuffer.Transition): the
environment observation type is abstract. -/
structure Transition (σ : Type) where
  state : σ
  action : ℤ
  reward : ℚ
  done : Bool
  new_state : σ
deriving DecidableEq

/-- Appending on a `collections.deque(maxlen := maxlen)`: the new element
goes to the right and the leftmost elements are dropped so that at most
`maxlen` remain. -/
def dequeAppend {α : Type} (maxlen : Nat) (l : List α) (x : α) : List α :=
  (l ++ [x]).drop (l.length + 1 - maxlen)

/-- State of the uniform buffer `ExperienceReplay` (buffer.py lines 8-51).
`size` is the construction capacity, `buffer` the deque contents (oldest
first), `current_size` the field maintained by `append`. -/
structure ExperienceReplay (σ : Type) where
  size : Nat
  batch_size : Nat
  buffer : List (Transition σ)
  current_size : Nat
deriving DecidableEq

/-- Construction of `ExperienceReplay(size, batch_size)`.  The base class
`IBaseBuffer` is not among the sources; modelled from the spec, which says
`current_size` tracks the live count, so it starts at 0 for the fresh
empty deque. -/
def ExperienceReplay.init (σ : Type) (size batch_size : Nat) :
    ExperienceReplay σ :=
  ⟨size, batch_size, [], 0⟩

/-- `ExperienceReplay.append` (buffer.py lines 17-20): push onto the
deque, then set `current_size = len(self._buffer)`. -/
def ExperienceReplay.append {σ : Type} (b : ExperienceReplay σ)
    (t : Transition σ) : ExperienceReplay σ :=
  let buf := dequeAppend b.size b.buffer t
  { b with buffer := buf, current_size := buf.length }

/-- `ExperienceReplay.get_sample_indices` (buffer.py lines 22-27), in
state-passing style.  The loop draws `batch_size` values of
`np.random.randint(low=0, high=self.size)`; draw `k` is oracle value
`rands k` reduced into `[0, size)`.  No field of `self` is written. -/
def ExperienceReplay.get_sample_indices_run {σ : Type}
    (b : ExperienceReplay σ) (rands : Nat → Nat) :
    List Nat × ExperienceReplay σ :=
  ((List.range b.batch_size).map (fun k => rands k % b.size), b)

/-- Result component of `get_sample_indices`. -/
def ExperienceReplay.get_sample_indices {σ : Type} (b : ExperienceReplay σ)
    (rands : Nat → Nat) : List Nat :=
  (b.get_sample_indices_run rands).1

/-- `ExperienceReplay.get_sample` (buffer.py lines 29-42), in
state-passing style: gather the five parallel columns of the selected
transitions.  Out-of-range indexing is mapped to a junk default `d`.
No field of `self` is written. -/
def ExperienceReplay.get_sample_run {σ : Type} (b : ExperienceReplay σ)
    (d : Transition σ) (indices : List Nat) :
    (List σ × List ℤ × List ℚ × List Bool × List σ) × ExperienceReplay σ :=
  let items := indices.map (fun i => b.buffer.getD i d)
  ((items.map Transition.state, items.map Transition.action,
    items.map Transition.reward, items.map Transition.done,
    items.map Transition.new_state), b)

/-- `np.max` over a nonempty array (empty case is unreachable in the
guarded code and mapped to 0). -/
def npMax : List ℚ → ℚ
  | [] => 0
  | x :: xs => xs.foldl max x

/-- `np.min` over a nonempty array (empty case mapped to 0). -/
def npMin : List ℚ → ℚ
  | [] => 0
  | x :: xs => xs.foldl min x

/-- `np.argmin` over a nonempty array: numpy returns the index of the
first occurrence of the minimal value. -/
def npArgmin (l : List ℚ) : Nat :=
  List.indexOf (npMin l) l

/-- State of `PrioritizedExperienceReplay` (buffer.py lines 54-118):
a plain list store plus the parallel `priorities` numpy array. -/
structure PERBuffer (σ : Type) where
  size : Nat
  batch_size : Nat
  buffer : List (Transition σ)
  priorities : List ℚ
  prob_alpha : ℚ
  epsilon : ℚ
  current_size : Nat
deriving DecidableEq

/-- Construction (buffer.py lines 59-73): empty list store, empty
priority array.  `current_size = 0` comes from the missing base class,
modelled from the spec (`current_size` tracks the live count). -/
def PERBuffer.init (σ : Type) (size batch_size : Nat) (prob_alpha epsilon : ℚ) :
    PERBuffer σ :=
  ⟨size, batch_size, [], [], prob_alpha, epsilon, 0⟩

/-- `PrioritizedExperienceReplay.append` (buffer.py lines 75-91).
Under capacity: push the transition, push priority `epsilon` if the
priority array is empty and otherwise its current maximum.  At capacity:
overwrite the slot at `np.argmin(priorities)` and set its priority to
`priorities.max()` (computed before the overwrite).  Finally
`current_size = len(self._buffer)`. -/
def PERBuffer.append {σ : Type} (b : PERBuffer σ) (t : Transition σ) :
    PERBuffer σ :=
  if b.current_size < b.size then
    let buf := b.buffer ++ [t]
    let ps := b.priorities ++
      [if b.priorities.length = 0 then b.epsilon else npMax b.priorities]
    { b with buffer := buf, priorities := ps, current_size := buf.length }
  else
    let idx := npArgmin b.priorities
    let buf := b.buffer.set idx t
    let ps := b.priorities.set idx (npMax b.priorities)
    { b with buffer := buf, priorities := ps, current_size := buf.length }

/-- Numpy fancy assignment `a[indices] = values`: positionwise
`a[indices[k]] := values[k]`, later positions winning. -/
def npFancySet (ps : List ℚ) (is : List Nat) (vs : List ℚ) : List ℚ :=
  (is.zip vs).foldl (fun acc iv => acc.set iv.1 iv.2) ps

/-- `PrioritizedExperienceReplay.update_priorities` (buffer.py lines
102-109): `self.priorities[indices] = abs_errors + self.epsilon`
(numpy broadcast of `+ epsilon`). -/
def PERBuffer.update_priorities {σ : Type} (b : PERBuffer σ)
    (indices : List Nat) (abs_errors : List ℚ) : PERBuffer σ :=
  { b with priorities :=
      npFancySet b.priorities indices (abs_errors.map (fun e => e + b.epsilon)) }

/-- The two numpy lines `probs = priorities ** alpha; probs /= probs.sum()`
of buffer.py lines 94-95, with the float power `** prob_alpha` abstracted
as `pw`. -/
def per_probs (pw : ℚ → ℚ) (priorities : List ℚ) : List ℚ :=
  let probs := priorities.map pw
  probs.map (fun x => x / probs.sum)

/-- The spec's sampling weight for transition `i`:
`p_i = priority_i^alpha / sum_j priority_j^alpha` (with the same
abstract power `pw`). -/
def spec_prob (pw : ℚ → ℚ) (priorities : List ℚ) (i : Nat) : ℚ :=
  pw (priorities.getD i 0) / (priorities.map pw).sum

/-- Drawing loop of `np.random.choice(n, k, replace=False)`: `k` draws,
each removing an oracle-chosen position from the remaining index pool. -/
def pickSeq : Nat → List Nat → (Nat → Nat) → Nat → List Nat
  | 0, _, _, _ => []
  | _ + 1, [], _, _ => []
  | k + 1, r :: rem, picks, step =>
    let i := picks step % (r :: rem).length
    (r :: rem).getD i 0 :: pickSeq k ((r :: rem).eraseIdx i) picks (step + 1)

/-- `np.random.choice(n, k, p=probs, replace=False)`: raises
(`none`) when asked for more distinct samples than the population holds,
otherwise draws `k` distinct members of `[0, n)`. -/
def choiceNoReplace (n k : Nat) (picks : Nat → Nat) : Option (List Nat) :=
  if k ≤ n then some (pickSeq k (List.range n) picks 0) else none

/-- `PrioritizedExperienceReplay.get_sample_indices` (buffer.py lines
93-100) in state-passing style: normalize priorities into sampling
probabilities, then draw `batch_size` indices without replacement from
`[0, len(self._buffer))`.  No field of `self` is written. -/
def PERBuffer.get_sample_indices_run {σ : Type} (b : PERBuffer σ)
    (pw : ℚ → ℚ) (picks : Nat → Nat) :
    Option (List Nat) × PERBuffer σ :=
  let _probs := per_probs pw b.priorities
  (choiceNoReplace b.buffer.length b.batch_size picks, b)

/-- `tf.cast(dones, tf.float32)`: booleans as 0/1 scalars. -/
def b2q (d : Bool) : ℚ := if d then 1 else 0

/-- Per-sample bootstrapped TD target of `Agent.update_main_q_network`
(dqn_v2.py lines 115-119): `reward + gamma * next_q_max * (1 - done)`
where `next_q_max` is `tf.reduce_max` over the target network's row of
action values for the next state. -/
def expected_q (gamma : ℚ) (tnetRow : List ℚ) (reward : ℚ) (done : Bool) : ℚ :=
  reward + gamma * npMax tnetRow * (1 - b2q done)

/-- Three-way zip used to form the per-sample batch. -/
def zipWith3 {α β γ δ : Type} (f : α → β → γ → δ) :
    List α → List β → List γ → List δ
  | a :: as, b :: bs, c :: cs => f a b c :: zipWith3 f as bs cs
  | _, _, _ => []

/-- Batched TD target `expected_q` of dqn_v2.py lines 116-119: the frozen
target network `tnet` maps each next state to its row of action values,
and the target is formed samplewise. -/
def expected_q_batch {σ : Type} (gamma : ℚ) (tnet : σ → List ℚ)
    (rewards : List ℚ) (dones : List Bool) (new_states : List σ) : List ℚ :=
  zipWith3 (fun r d ns => expected_q gamma (tnet ns) r d) rewards dones new_states

/-- The spec's linear interpolation on a segment: value `a` at step `x0`,
value `b` at step `x1`, linear in between. -/
def lerp (a b x0 x1 x : ℚ) : ℚ :=
  a + (b - a) * (x - x0) / (x1 - x0)

/-- `Agent.get_eps` (dqn_v2.py lines 74-98), parametrised by the agent
constants it reads (`epsilon_start`, `epsilon_end`,
`epsilon_decay_steps`, `replay_start_size`) and the method defaults
(`terminal_eps`, `terminal_frame_factor`). -/
def get_eps (epsStart epsEnd decaySteps rss terminalEps tff step : ℚ) : ℚ :=
  let terminalFrame := decaySteps * tff
  if step < rss then epsStart
  else if step < decaySteps then
    (epsEnd - epsStart) / (decaySteps - rss) * (step - rss) + epsStart
  else if step < terminalFrame then
    (terminalEps - epsEnd) / (terminalFrame - decaySteps) * (step - decaySteps) + epsEnd
  else terminalEps

/-- Agent constant `update_frequency` (dqn_v2.py line 23). -/
def update_frequency : Nat := 4

/-- Agent constant `target_network_update_freq` (dqn_v2.py line 24). -/
def target_network_update_freq : Nat := 1000

/-- Agent constant: replay memory capacity (dqn_v2.py line 26,
`ExperienceReplay(size=200, ...)`). -/
def memory_size : Nat := 200

/-- Agent constant `batch_size` (dqn_v2.py line 22). -/
def agent_batch_size : Nat := 32

/-- Agent constant `replay_start_size` (dqn_v2.py line 37). -/
def replay_start_size : Nat := 250

/-- Guard of the learner update in `Agent.train` (dqn_v2.py line 167):
`total_step % update_frequency == 0 and total_step > replay_start_size`. -/
def learnFires (total_step : Nat) : Bool :=
  total_step % update_frequency == 0 && replay_start_size < total_step

/-- Guard of the target sync in `Agent.train` (dqn_v2.py line 174):
`total_step % target_network_update_freq == 0 and
total_step > replay_start_size`. -/
def syncFires (total_step : Nat) : Bool :=
  total_step % target_network_update_freq == 0 && replay_start_size < total_step

/-- State of the inner training loop of `Agent.train` that the cadence
claims depend on: the step counter and the replay memory. -/
structure TrainState (σ : Type) where
  total_step : Nat
  memory : ExperienceReplay σ

/-- Initial loop state of `Agent.train`: `total_step = 0` and the
memory constructed in `Agent.__init__`. -/
def TrainState.start (σ : Type) : TrainState σ :=
  ⟨0, ExperienceReplay.init σ memory_size agent_batch_size⟩

/-- One iteration of the inner `while` of `Agent.train` (dqn_v2.py lines
155-178), restricted to the state the cadence claims mention: append the
new transition, decide the learner-update and sync guards, then
increment `total_step`.  The returned booleans record whether LEARN and
SYNC fired this step. -/
def trainIter {σ : Type} (s : TrainState σ) (t : Transition σ) :
    TrainState σ × Bool × Bool :=
  let mem := s.memory.append t
  let learned := learnFires s.total_step
  let synced := syncFires s.total_step
  (⟨s.total_step + 1, mem⟩, learned, synced)

/-- Loop state after the first `ts.length` iterations of `Agent.train`. -/
def trainRun {σ : Type} (ts : List (Transition σ)) : TrainState σ :=
  ts.foldl (fun s t => (trainIter s t).1) (TrainState.start σ)

/-! ### Basic lemmas about the numpy primitives -/

lemma foldl_max_init_le (xs : List ℚ) (b : ℚ) : b ≤ xs.foldl max b := by
  induction xs generalizing b with
  | nil => exact le_refl b
  | cons y ys ih => exact le_trans (le_max_left b y) (ih (max b y))

lemma le_foldl_max (xs : List ℚ) (b : ℚ) (x : ℚ) (hx : x ∈ xs) :
    x ≤ xs.foldl max b := by
  induction xs generalizing b with
  | nil => cases hx
  | cons y ys ih =>
    rcases List.mem_cons.1 hx with h | h
    · subst h
      exact le_trans (le_max_right b x) (foldl_max_init_le ys (max b x))
    · exact ih (max b y) h

lemma foldl_max_cases (xs : List ℚ) (b : ℚ) :
    xs.foldl max b = b ∨ xs.foldl max b ∈ xs := by
  induction xs generalizing b with
  | nil => exact Or.inl rfl
  | cons y ys ih =>
    rcases ih (max b y) with h | h
    · rcases max_choice b y with hb | hy
      · exact Or.inl (by rw [List.foldl_cons, h, hb])
      · exact Or.inr (by rw [List.foldl_cons, h, hy]; exact List.mem_cons_self y ys)
    · exact Or.inr (List.mem_cons_of_mem y h)

lemma le_npMax (l : List ℚ) (x : ℚ) (hx : x ∈ l) : x ≤ npMax l := by
  cases l with
  | nil => cases hx
  | cons y ys =>
    rcases List.mem_cons.1 hx with h | h
    · subst h; exact foldl_max_init_le ys x
    · exact le_foldl_max ys y x h

lemma npMax_mem (l : List ℚ) (hl : l ≠ []) : npMax l ∈ l := by
  cases l with
  | nil => exact absurd rfl hl
  | cons y ys =>
    rcases foldl_max_cases ys y with h | h
    · have hy : npMax (y :: ys) = y := h
      rw [hy]; exact List.mem_cons_self y ys
    · exact List.mem_cons_of_mem y h

lemma foldl_min_le_init (xs : List ℚ) (b : ℚ) : xs.foldl min b ≤ b := by
  induction xs generalizing b with
  | nil => exact le_refl b
  | cons y ys ih => exact le_trans (ih (min b y)) (min_le_left b y)

lemma foldl_min_le (xs : List ℚ) (b : ℚ) (x : ℚ) (hx : x ∈ xs) :
    xs.foldl min b ≤ x := by
  induction xs generalizing b with
  | nil => cases hx
  | cons y ys ih =>
    rcases List.mem_cons.1 hx with h | h
    · subst h
      exact le_trans (foldl_min_le_init ys (min b x)) (min_le_right b x)
    · exact ih (min b y) h

lemma foldl_min_cases (xs : List ℚ) (b : ℚ) :
    xs.foldl min b = b ∨ xs.foldl min b ∈ xs := by
  induction xs generalizing b with
  | nil => exact Or.inl rfl
  | cons y ys ih =>
    rcases ih (min b y) with h | h
    · rcases min_choice b y with hb | hy
      · exact Or.inl (by rw [List.foldl_cons, h, hb])
      · exact Or.inr (by rw [List.foldl_cons, h, hy]; exact List.mem_cons_self y ys)
    · exact Or.inr (List.mem_cons_of_mem y h)

lemma npMin_le (l : List ℚ) (x : ℚ) (hx : x ∈ l) : npMin l ≤ x := by
  cases l with
  | nil => cases hx
  | cons y ys =>
    rcases List.mem_cons.1 hx with h | h
    · subst h; exact foldl_min_le_init ys x
    · exact foldl_min_le ys y x h

lemma npMin_mem (l : List ℚ) (hl : l ≠ []) : npMin l ∈ l := by
  cases l with
  | nil => exact absurd rfl hl
  | cons y ys =>
    rcases foldl_min_cases ys y with h | h
    · have hy : npMin (y :: ys) = y := h
      rw [hy]; exact List.mem_cons_self y ys
    · exact List.mem_cons_of_mem y h

lemma npArgmin_lt_length (l : List ℚ) (hl : l ≠ []) : npArgmin l < l.length :=
  List.indexOf_lt_length.2 (npMin_mem l hl)

lemma getElem_npArgmin (l : List ℚ) (h : npArgmin l < l.length) :
    l[npArgmin l] = npMin l :=
  List.getElem_indexOf h

lemma dequeAppend_length {α : Type} (maxlen : Nat) (l : List α) (x : α) :
    (dequeAppend maxlen l x).length = min (l.length + 1) maxlen := by
  simp only [dequeAppend, List.length_drop, List.length_append, List.length_cons,
    List.length_nil]
  omega

lemma npFancySet_length (is : List Nat) (vs : List ℚ) (ps : List ℚ) :
    (npFancySet ps is vs).length = ps.length := by
  induction is generalizing ps vs with
  | nil => rfl
  | cons i is ih =>
    cases vs with
    | nil => rfl
    | cons v vs =>
      show (npFancySet (ps.set i v) is vs).length = ps.length
      rw [ih, List.length_set]

lemma npFancySet_getElem?_of_not_mem (is : List Nat) (vs : List ℚ) (ps : List ℚ)
    (j : Nat) (hj : j ∉ is) :
    (npFancySet ps is vs)[j]? = ps[j]? := by
  induction is generalizing ps vs with
  | nil => rfl
  | cons i is ih =>
    cases vs with
    | nil => rfl
    | cons v vs =>
      show (npFancySet (ps.set i v) is vs)[j]? = ps[j]?
      rw [ih _ _ (fun h => hj (List.mem_cons_of_mem i h))]
      exact List.getElem?_set_ne
        (fun hij => hj (by rw [← hij]; exact List.mem_cons_self i is))

lemma npFancySet_getElem?_at (is : List Nat) (vs : List ℚ) (ps : List ℚ)
    (hnd : is.Nodup) (hlen : is.length = vs.length)
    (k : Nat) (hk : k < is.length) (hval : is.getD k 0 < ps.length) :
    (npFancySet ps is vs)[is.getD k 0]? = some (vs.getD k 0) := by
  induction is generalizing ps vs k with
  | nil => cases hk
  | cons i is ih =>
    cases vs with
    | nil => cases hlen
    | cons v vs =>
      rcases List.nodup_cons.1 hnd with ⟨hi, hnd2⟩
      cases k with
      | zero =>
        show (npFancySet (ps.set i v) is vs)[i]? = some v
        rw [npFancySet_getElem?_of_not_mem is vs (ps.set i v) i hi]
        exact List.getElem?_set_self (by simpa using hval)
      | succ k =>
        show (npFancySet (ps.set i v) is vs)[is.getD k 0]? = some (vs.getD k 0)
        exact ih vs (ps.set i v) hnd2 (by simpa using hlen) k
          (Nat.lt_of_succ_lt_succ hk) (by simpa using hval)

lemma pickSeq_length (k : Nat) (rem : List Nat) (picks : Nat → Nat) (step : Nat)
    (h : k ≤ rem.length) : (pickSeq k rem picks step).length = k := by
  induction k generalizing rem step with
  | zero => rfl
  | succ k ih =>
    cases rem with
    | nil => cases h
    | cons r rs =>
      show ((r :: rs).getD (picks step % (r :: rs).length) 0 ::
        pickSeq k ((r :: rs).eraseIdx (picks step % (r :: rs).length))
          picks (step + 1)).length = k + 1
      rw [List.length_cons, ih]
      rw [List.length_eraseIdx_of_lt
        (Nat.mod_lt _ (by simp))]
      exact Nat.le_of_succ_le_succ (by simpa using h)

lemma pickSeq_subset (k : Nat) (rem : List Nat) (picks : Nat → Nat)
    (step : Nat) (x : Nat) (hx : x ∈ pickSeq k rem picks step) : x ∈ rem := by
  induction k generalizing rem step with
  | zero => cases hx
  | succ k ih =>
    cases rem with
    | nil => cases hx
    | cons r rs =>
      rcases List.mem_cons.1 hx with h | h
      · subst h
        have hlt : picks step % (r :: rs).length < (r :: rs).length :=
          Nat.mod_lt _ (by simp)
        rw [List.getD_eq_getElem?_getD, List.getElem?_eq_getElem hlt]
        exact List.getElem_mem hlt
      · exact List.mem_of_mem_eraseIdx (ih _ _ h)

lemma nodup_getElem_not_mem_eraseIdx (l : List Nat) (i : Nat)
    (hi : i < l.length) (h : l.Nodup) : l[i] ∉ l.eraseIdx i := by
  intro hmem
  rcases List.mem_eraseIdx_iff_getElem.1 hmem with ⟨j, hj, hji, hval⟩
  exact hji (h.getElem_inj_iff.1 hval)

lemma pickSeq_nodup (k : Nat) (rem : List Nat) (picks : Nat → Nat)
    (step : Nat) (h : rem.Nodup) : (pickSeq k rem picks step).Nodup := by
  induction k generalizing rem step with
  | zero => exact List.nodup_nil
  | succ k ih =>
    cases rem with
    | nil => exact List.nodup_nil
    | cons r rs =>
      have hlt : picks step % (r :: rs).length < (r :: rs).length :=
        Nat.mod_lt _ (by simp)
      refine List.nodup_cons.2 ⟨?_, ih _ _ (List.Nodup.sublist (List.eraseIdx_sublist _ _) h)⟩
      intro hmem
      have hmem2 := pickSeq_subset k _ picks (step + 1) _ hmem
      rw [List.getD_eq_getElem?_getD, List.getElem?_eq_getElem hlt] at hmem2
      exact nodup_getElem_not_mem_eraseIdx (r :: rs) _ hlt h hmem2

lemma per_probs_getD (pw : ℚ → ℚ) (ps : List ℚ) (i : Nat)
    (hi : i < ps.length) :
    (per_probs pw ps).getD i 0 = spec_prob pw ps i := by
  simp [per_probs, spec_prob, List.getD_eq_getElem?_getD, List.getElem?_map,
    List.getElem?_eq_getElem hi]

lemma foldl_set_mem (pairs : List (Nat × ℚ)) (ps : List ℚ) (x : ℚ)
    (hx : x ∈ pairs.foldl (fun acc iv => acc.set iv.1 iv.2) ps) :
    x ∈ ps ∨ ∃ p ∈ pairs, x = p.2 := by
  induction pairs generalizing ps with
  | nil => exact Or.inl hx
  | cons q qs ih =>
    rcases ih (ps.set q.1 q.2) hx with h | ⟨p, hp, hxp⟩
    · rcases List.mem_or_eq_of_mem_set h with h2 | h2
      · exact Or.inl h2
      · exact Or.inr ⟨q, List.mem_cons_self q qs, h2⟩
    · exact Or.inr ⟨p, List.mem_cons_of_mem q hp, hxp⟩

lemma npFancySet_mem (ps : List ℚ) (is : List Nat) (vs : List ℚ) (x : ℚ)
    (hx : x ∈ npFancySet ps is vs) : x ∈ ps ∨ x ∈ vs := by
  rcases foldl_set_mem (is.zip vs) ps x hx with h | ⟨p, hp, hxp⟩
  · exact Or.inl h
  · exact Or.inr (hxp ▸ (List.of_mem_zip (by exact hp)).2)

/-! ### Mutation sequences and the capacity invariant -/

/-- Apply a whole sequence of `append` calls to a uniform buffer. -/
def ExperienceReplay.applyAppends {σ : Type} (b : ExperienceReplay σ)
    (ts : List (Transition σ)) : ExperienceReplay σ :=
  ts.foldl ExperienceReplay.append b

/-- One mutating call on the prioritized buffer: `append` or
`update_priorities`. -/
inductive PERMutation (σ : Type) where
  | append (t : Transition σ)
  | update (indices : List Nat) (abs_errors : List ℚ)

/-- Apply one mutating call. -/
def PERBuffer.applyMut {σ : Type} (b : PERBuffer σ) :
    PERMutation σ → PERBuffer σ
  | PERMutation.append t => b.append t
  | PERMutation.update is es => b.update_priorities is es

/-- Apply a whole sequence of mutating calls. -/
def PERBuffer.applyMuts {σ : Type} (b : PERBuffer σ)
    (ms : List (PERMutation σ)) : PERBuffer σ :=
  ms.foldl PERBuffer.applyMut b

/-- Structural well-formedness of a prioritized-buffer state: the store
fits the capacity, the priority array is parallel to the store, and
`current_size` caches the store length. -/
def PERBuffer.WF {σ : Type} (b : PERBuffer σ) : Prop :=
  b.buffer.length ≤ b.size ∧
  b.priorities.length = b.buffer.length ∧
  b.current_size = b.buffer.length

lemma PERBuffer.append_size {σ : Type} (b : PERBuffer σ) (t : Transition σ) :
    (b.append t).size = b.size := by
  unfold PERBuffer.append
  split <;> rfl

lemma PERBuffer.update_priorities_size {σ : Type} (b : PERBuffer σ)
    (is : List Nat) (es : List ℚ) :
    (b.update_priorities is es).size = b.size := rfl

lemma PERBuffer.append_epsilon {σ : Type} (b : PERBuffer σ) (t : Transition σ) :
    (b.append t).epsilon = b.epsilon := by
  unfold PERBuffer.append
  split <;> rfl

lemma PERBuffer.update_priorities_epsilon {σ : Type} (b : PERBuffer σ)
    (is : List Nat) (es : List ℚ) :
    (b.update_priorities is es).epsilon = b.epsilon := rfl

lemma PERBuffer.WF.append {σ : Type} {b : PERBuffer σ} (h : b.WF)
    (t : Transition σ) : (b.append t).WF := by
  rcases h with ⟨hcap, hpar, hcur⟩
  have hs : (b.append t).size = b.size := b.append_size t
  by_cases hlt : b.current_size < b.size
  · have hb : (b.append t).buffer.length = b.buffer.length + 1 := by
      simp [PERBuffer.append, hlt]
    have hp : (b.append t).priorities.length = b.priorities.length + 1 := by
      simp [PERBuffer.append, hlt]
    have hc : (b.append t).current_size = (b.append t).buffer.length := by
      simp [PERBuffer.append, hlt]
    exact ⟨by omega, by omega, hc⟩
  · have hb : (b.append t).buffer.length = b.buffer.length := by
      simp [PERBuffer.append, hlt]
    have hp : (b.append t).priorities.length = b.priorities.length := by
      simp [PERBuffer.append, hlt]
    have hc : (b.append t).current_size = (b.append t).buffer.length := by
      simp [PERBuffer.append, hlt]
    exact ⟨by omega, by omega, hc⟩

lemma PERBuffer.WF.update {σ : Type} {b : PERBuffer σ} (h : b.WF)
    (is : List Nat) (es : List ℚ) : (b.update_priorities is es).WF := by
  rcases h with ⟨hcap, hpar, hcur⟩
  exact ⟨hcap, by simpa [PERBuffer.update_priorities, npFancySet_length] using hpar, hcur⟩

lemma PERBuffer.WF.applyMut {σ : Type} {b : PERBuffer σ} (h : b.WF)
    (m : PERMutation σ) : (b.applyMut m).WF := by
  cases m with
  | append t => exact h.append t
  | update is es => exact h.update is es

lemma PERBuffer.applyMut_size {σ : Type} (b : PERBuffer σ) (m : PERMutation σ) :
    (b.applyMut m).size = b.size := by
  cases m with
  | append t => exact b.append_size t
  | update is es => rfl

lemma PERBuffer.init_WF (σ : Type) (size bs : Nat) (alpha eps : ℚ) :
    (PERBuffer.init σ size bs alpha eps).WF :=
  ⟨Nat.zero_le _, rfl, rfl⟩

lemma PERBuffer.applyMuts_WF {σ : Type} (b : PERBuffer σ)
    (ms : List (PERMutation σ)) (h : b.WF) : (b.applyMuts ms).WF := by
  induction ms generalizing b with
  | nil => exact h
  | cons m ms ih => exact ih (b.applyMut m) (h.applyMut m)

lemma PERBuffer.applyMuts_size {σ : Type} (b : PERBuffer σ)
    (ms : List (PERMutation σ)) : (b.applyMuts ms).size = b.size := by
  induction ms generalizing b with
  | nil => rfl
  | cons m ms ih => rw [PERBuffer.applyMuts, List.foldl_cons,
      ← PERBuffer.applyMuts, ih, PERBuffer.applyMut_size]

lemma ExperienceReplay.append_size_eq {σ : Type} (b : ExperienceReplay σ)
    (t : Transition σ) : (b.append t).size = b.size := rfl

lemma ExperienceReplay.append_length_le {σ : Type} (b : ExperienceReplay σ)
    (t : Transition σ) : (b.append t).buffer.length ≤ b.size := by
  show (dequeAppend b.size b.buffer t).length ≤ b.size
  rw [dequeAppend_length]
  omega

lemma ExperienceReplay.applyAppends_length {σ : Type} (b : ExperienceReplay σ)
    (ts : List (Transition σ)) (h : b.buffer.length ≤ b.size) :
    (b.applyAppends ts).buffer.length ≤ b.size := by
  induction ts generalizing b with
  | nil => exact h
  | cons t ts ih => exact ih (b.append t) (b.append_length_le t)

/-- States of the prioritized buffer reachable from construction by
`append` calls and `update_priorities` calls with nonnegative
`abs_errors` (TD-error magnitudes are absolute values). -/
inductive PERReachable {σ : Type} : PERBuffer σ → Prop where
  | init (size bs : Nat) (alpha eps : ℚ) :
      PERReachable (PERBuffer.init σ size bs alpha eps)
  | append (b : PERBuffer σ) (t : Transition σ) :
      PERReachable b → PERReachable (b.append t)
  | update (b : PERBuffer σ) (is : List Nat) (es : List ℚ) :
      PERReachable b → (∀ e ∈ es, 0 ≤ e) →
      PERReachable (b.update_priorities is es)

lemma per_reachable_priority_floor {σ : Type} {b : PERBuffer σ}
    (h : PERReachable b) : ∀ p ∈ b.priorities, b.epsilon ≤ p := by
  induction h with
  | init size bs alpha eps => intro p hp; cases hp
  | append b t hb ih =>
    intro p hp
    rw [PERBuffer.append_epsilon]
    by_cases hlt : b.current_size < b.size
    · have hps : (b.append t).priorities = b.priorities ++
          [if b.priorities.length = 0 then b.epsilon else npMax b.priorities] := by
        simp [PERBuffer.append, hlt]
      rw [hps] at hp
      rcases List.mem_append.1 hp with h1 | h1
      · exact ih p h1
      · have h2 := List.mem_singleton.1 h1
        subst h2
        by_cases hemp : b.priorities.length = 0
        · simp [hemp]
        · have hne : b.priorities ≠ [] := fun hh => hemp (by rw [hh]; rfl)
          simp only [hemp, if_false]
          exact ih _ (npMax_mem _ hne)
    · have hps : (b.append t).priorities =
          b.priorities.set (npArgmin b.priorities) (npMax b.priorities) := by
        simp [PERBuffer.append, hlt]
      rw [hps] at hp
      rcases List.mem_or_eq_of_mem_set hp with h1 | h1
      · exact ih p h1
      · subst h1
        have hne : b.priorities ≠ [] := by
          intro hh
          rw [hh] at hp
          simp at hp
        exact ih _ (npMax_mem _ hne)
  | update b is es hb hes ih =>
    intro p hp
    rw [PERBuffer.update_priorities_epsilon]
    rcases npFancySet_mem _ _ _ p hp with h1 | h1
    · exact ih p h1
    · rcases List.mem_map.1 h1 with ⟨e, he, rfl⟩
      have h2 := hes e he
      linarith

/-! ### Concrete fixtures used by counterexamples and witnesses -/

/-- A junk transition over the trivial observation type. -/
def exT : Transition Unit := ⟨(), 0, 0, false, ()⟩

/-- A second, distinguishable junk transition. -/
def exT2 : Transition Unit := ⟨(), 1, 1, true, ()⟩

/-- A full (capacity 3) prioritized buffer with priorities `[1, 9, 5]`
— the spec's min-priority eviction example `[0.1, 0.9, 0.5]` scaled by
10 to keep all rationals integer-valued (kernel-reducible). -/
def exPER : PERBuffer Unit :=
  ⟨3, 1, [exT, exT, exT], [1, 9, 5], 1, 1, 3⟩

/-- A small reachable prioritized-buffer state: construct, append one
transition, then update its priority with absolute error 2. -/
def exPER9 : PERBuffer Unit :=
  ((PERBuffer.init Unit 2 1 1 1).append exT).update_priorities [0] [2]

/-! ### Claim theorems -/

/-- C2: `PrioritizedExperienceReplay.append` gives a fresh transition
priority `epsilon` when the buffer is empty and otherwise the current
maximum priority (optimistic initialization); once at capacity it
overwrites the slot at the first index of minimum priority — not the
oldest — and that slot's new priority is the maximum priority held
before the overwrite. -/
theorem per_append_insertion_and_eviction {σ : Type} (b : PERBuffer σ)
    (t : Transition σ) :
    (b.current_size < b.size →
      (b.append t).buffer = b.buffer ++ [t] ∧
      (b.append t).priorities = b.priorities ++
        [if b.priorities.length = 0 then b.epsilon else npMax b.priorities] ∧
      (∀ p ∈ b.priorities, p ≤ npMax b.priorities)) ∧
    (¬ b.current_size < b.size → b.priorities ≠ [] →
      (b.append t).buffer = b.buffer.set (npArgmin b.priorities) t ∧
      (b.append t).priorities =
        b.priorities.set (npArgmin b.priorities) (npMax b.priorities) ∧
      npArgmin b.priorities < b.priorities.length ∧
      (∀ p ∈ b.priorities, b.priorities.getD (npArgmin b.priorities) 0 ≤ p) ∧
      npMax b.priorities ∈ b.priorities ∧
      (∀ p ∈ b.priorities, p ≤ npMax b.priorities)) := by
  constructor
  · intro hlt
    exact ⟨by simp [PERBuffer.append, hlt], by simp [PERBuffer.append, hlt],
      fun p hp => le_npMax _ p hp⟩
  · intro hge hne
    have harg := npArgmin_lt_length _ hne
    refine ⟨by simp [PERBuffer.append, hge], by simp [PERBuffer.append, hge],
      harg, ?_, npMax_mem _ hne, fun p hp => le_npMax _ p hp⟩
    intro p hp
    have hgd : b.priorities.getD (npArgmin b.priorities) 0 = npMin b.priorities := by
      rw [List.getD_eq_getElem?_getD, List.getElem?_eq_getElem harg,
        Option.getD_some, getElem_npArgmin _ harg]
    rw [hgd]
    exact npMin_le _ p hp

/-- Witness for C2 at the spec's example (scaled by 10): priorities
`[1, 9, 5]` at capacity 3; the append evicts index 0 and the new slot's
priority is the prior maximum 9, not `epsilon`. -/
theorem per_append_insertion_and_eviction_witness :
    (exPER.append exT2).priorities = [9, 9, 5] ∧
    (exPER.append exT2).buffer = [exT2, exT, exT] ∧
    npArgmin exPER.priorities = 0 := by
  have h := (per_append_insertion_and_eviction exPER exT2).2 (by decide) (by decide)
  refine ⟨?_, ?_, by decide⟩
  · rw [h.2.1]; decide
  · rw [h.1]; decide

/-- C3: for every sequence of `append` calls on the uniform buffer the
store never exceeds the construction capacity, and for every sequence of
`append` / `update_priorities` calls on the prioritized buffer the store
never exceeds the capacity and the priority array stays exactly parallel
to the store. -/
theorem buffers_capacity_invariant (σ : Type) (size bs : Nat) (alpha eps : ℚ)
    (ts : List (Transition σ)) (ms : List (PERMutation σ)) :
    ((ExperienceReplay.init σ size bs).applyAppends ts).buffer.length ≤ size ∧
    ((PERBuffer.init σ size bs alpha eps).applyMuts ms).buffer.length ≤ size ∧
    ((PERBuffer.init σ size bs alpha eps).applyMuts ms).priorities.length =
      ((PERBuffer.init σ size bs alpha eps).applyMuts ms).buffer.length := by
  have hwf := PERBuffer.applyMuts_WF (PERBuffer.init σ size bs alpha eps) ms
    (PERBuffer.init_WF σ size bs alpha eps)
  have hsz := PERBuffer.applyMuts_size (PERBuffer.init σ size bs alpha eps) ms
  refine ⟨ExperienceReplay.applyAppends_length _ ts (Nat.zero_le _), ?_, hwf.2.1⟩
  have h1 := hwf.1
  rw [hsz] at h1
  exact h1

/-- C6: after `update_priorities(indices, abs_errors)` with distinct
in-range indices, the priority at `indices[k]` is exactly
`abs_errors[k] + epsilon`, priorities at indices outside `indices` are
unchanged, and the array length is unchanged. -/
theorem update_priorities_roundtrip {σ : Type} (b : PERBuffer σ)
    (indices : List Nat) (abs_errors : List ℚ)
    (hnd : indices.Nodup) (hlen : indices.length = abs_errors.length)
    (k : Nat) (hk : k < indices.length)
    (hidx : indices.getD k 0 < b.priorities.length) :
    (b.update_priorities indices abs_errors).priorities.getD (indices.getD k 0) 0
      = abs_errors.getD k 0 + b.epsilon ∧
    (∀ j, j ∉ indices →
      (b.update_priorities indices abs_errors).priorities[j]? =
        b.priorities[j]?) ∧
    (b.update_priorities indices abs_errors).priorities.length =
      b.priorities.length := by
  refine ⟨?_, ?_, npFancySet_length _ _ _⟩
  · have h := npFancySet_getElem?_at indices
      (abs_errors.map (fun e => e + b.epsilon)) b.priorities hnd
      (by simp [hlen]) k hk hidx
    have hk2 : k < abs_errors.length := hlen ▸ hk
    show (npFancySet b.priorities indices
      (abs_errors.map (fun e => e + b.epsilon))).getD (indices.getD k 0) 0 = _
    rw [List.getD_eq_getElem?_getD, h, Option.getD_some]
    simp [List.getD_eq_getElem?_getD, List.getElem?_map,
      List.getElem?_eq_getElem hk2]
  · intro j hj
    exact npFancySet_getElem?_of_not_mem _ _ _ j hj

/-- Witness for C6: on priorities `[1, 9, 5]`, updating indices `[2, 0]`
with errors `[1, 2]` sets slot 2 to `1 + epsilon` and leaves slot 1
at 9. -/
theorem update_priorities_roundtrip_witness :
    (exPER.update_priorities [2, 0] [1, 2]).priorities.getD 2 0 = 1 + 1 ∧
    (exPER.update_priorities [2, 0] [1, 2]).priorities[1]? = some 9 := by
  have h := update_priorities_roundtrip exPER [2, 0] [1, 2]
    (by decide) rfl 0 (by decide) (by decide)
  refine ⟨h.1, ?_⟩
  rw [h.2.1 1 (by decide)]
  rfl

/-- C9: in every state reachable by `append` and `update_priorities`
with nonnegative errors, every stored priority is at least `epsilon` and
hence strictly positive, and therefore every stored transition's
normalized sampling weight in `get_sample_indices` is strictly positive
(for any positivity-preserving power function). -/
theorem per_reachable_priorities_positive {σ : Type} (b : PERBuffer σ)
    (h : PERReachable b) (heps : 0 < b.epsilon) :
    (∀ p ∈ b.priorities, b.epsilon ≤ p ∧ 0 < p) ∧
    (∀ pw : ℚ → ℚ, (∀ q, 0 < q → 0 < pw q) →
      ∀ i, i < b.priorities.length → 0 < spec_prob pw b.priorities i) := by
  have hfloor := per_reachable_priority_floor h
  constructor
  · exact fun p hp => ⟨hfloor p hp, lt_of_lt_of_le heps (hfloor p hp)⟩
  · intro pw hpw i hi
    have hne : b.priorities ≠ [] := by
      intro hh
      rw [hh] at hi
      simp at hi
    have hmem : b.priorities.getD i 0 ∈ b.priorities := by
      rw [List.getD_eq_getElem?_getD, List.getElem?_eq_getElem hi]
      exact List.getElem_mem hi
    have hnum : 0 < pw (b.priorities.getD i 0) :=
      hpw _ (lt_of_lt_of_le heps (hfloor _ hmem))
    have hden : 0 < (b.priorities.map pw).sum := by
      apply List.sum_pos
      · intro x hx
        rcases List.mem_map.1 hx with ⟨p, hp, rfl⟩
        exact hpw p (lt_of_lt_of_le heps (hfloor p hp))
      · simpa using hne
    exact div_pos hnum hden

/-- Witness for C9 on a concrete reachable state: after one append and
one priority update with error 2, the single stored priority is
`2 + epsilon ≥ epsilon > 0` and its sampling weight is positive. -/
theorem per_reachable_priorities_positive_witness :
    ((1:ℚ) ≤ 3 ∧ (0:ℚ) < 3) ∧
    0 < spec_prob (fun q => q) exPER9.priorities 0 := by
  have hr : PERReachable exPER9 :=
    PERReachable.update _ [0] [2]
      (PERReachable.append _ exT (PERReachable.init 2 1 1 1))
      (by decide)
  have h := per_reachable_priorities_positive exPER9 hr (by decide)
  have hps : exPER9.priorities = [3] := by
    norm_num [exPER9, PERBuffer.update_priorities, PERBuffer.append,
      PERBuffer.init, npFancySet]
  exact ⟨h.1 3 (by rw [hps]; exact List.mem_singleton_self 3),
    h.2 (fun q => q) (fun q hq => hq) 0 (by decide)⟩

/-- `get_sample` as inherited unchanged by `PrioritizedExperienceReplay`
(buffer.py lines 29-42 via the subclass), in state-passing style: no
field of `self` is written. -/
def PERBuffer.get_sample_run {σ : Type} (b : PERBuffer σ)
    (d : Transition σ) (indices : List Nat) :
    (List σ × List ℤ × List ℚ × List Bool × List σ) × PERBuffer σ :=
  let items := indices.map (fun i => b.buffer.getD i d)
  ((items.map Transition.state, items.map Transition.action,
    items.map Transition.reward, items.map Transition.done,
    items.map Transition.new_state), b)

/-- A uniform buffer of capacity 2 holding a single transition
(`current_size = 1 < size = 2`). -/
def exUniform : ExperienceReplay Unit :=
  (ExperienceReplay.init Unit 2 1).append exT

/-- A full prioritized buffer of capacity 2 with uniform priorities. -/
def exPER5 : PERBuffer Unit := ⟨2, 1, [exT, exT], [1, 1], 1, 1, 2⟩

/-- C1 counterexample: with capacity 2 and a single stored transition,
`get_sample_indices` can return index 1, which is not smaller than
`current_size = 1` — the code draws from `[0, size)` (the construction
capacity), not from `[0, current_size)`, so a returned index need not
refer to a stored transition. -/
theorem uniform_sample_range_counterexample :
    1 ≤ exUniform.current_size ∧
    ¬ (∀ i ∈ exUniform.get_sample_indices (fun _ => 1),
        i < exUniform.current_size) := by
  decide

/-- C1 (amended): `get_sample_indices` returns `batch_size` indices
drawn from `[0, size)`, the construction capacity: every returned index
is below `size`, every index list over `[0, size)` of the right length
is realizable by some oracle (full support), and only when the buffer is
full (`current_size = size`) is every returned index guaranteed to refer
to a stored transition. -/
theorem uniform_sample_indices_range {σ : Type} (b : ExperienceReplay σ)
    (rands : Nat → Nat) (h : 0 < b.size) :
    (b.get_sample_indices rands).length = b.batch_size ∧
    (∀ i ∈ b.get_sample_indices rands, i < b.size) ∧
    (b.current_size = b.size →
      ∀ i ∈ b.get_sample_indices rands, i < b.current_size) ∧
    (∀ l : List Nat, l.length = b.batch_size → (∀ x ∈ l, x < b.size) →
      b.get_sample_indices (fun k => l.getD k 0) = l) := by
  have hmem : ∀ i ∈ b.get_sample_indices rands, i < b.size := by
    intro i hi
    simp only [ExperienceReplay.get_sample_indices,
      ExperienceReplay.get_sample_indices_run, List.mem_map] at hi
    rcases hi with ⟨k, hk, rfl⟩
    exact Nat.mod_lt _ h
  refine ⟨by simp [ExperienceReplay.get_sample_indices,
      ExperienceReplay.get_sample_indices_run], hmem, ?_, ?_⟩
  · intro hcs i hi
    rw [hcs]
    exact hmem i hi
  · intro l hl hb
    apply List.ext_getElem
    · simp [ExperienceReplay.get_sample_indices,
        ExperienceReplay.get_sample_indices_run, hl]
    · intro i h1 h2
      simp only [ExperienceReplay.get_sample_indices,
        ExperienceReplay.get_sample_indices_run, List.getElem_map,
        List.getElem_range]
      rw [List.getD_eq_getElem?_getD, List.getElem?_eq_getElem h2,
        Option.getD_some]
      exact Nat.mod_eq_of_lt (hb _ (List.getElem_mem h2))

/-- Witness for the amended C1 on the concrete capacity-2 buffer. -/
theorem uniform_sample_indices_range_witness :
    (exUniform.get_sample_indices (fun _ => 0)).length =
      exUniform.batch_size ∧
    ∀ i ∈ exUniform.get_sample_indices (fun _ => 0), i < exUniform.size := by
  have h := uniform_sample_indices_range exUniform (fun _ => 0) (by decide)
  exact ⟨h.1, h.2.1⟩

/-- C10: the sampling operations of both buffer variants are read-only:
the state component returned by each state-passing embedding equals the
input state (no field of the buffer is written). -/
theorem sampling_operations_read_only {σ : Type} (b : ExperienceReplay σ)
    (rands : Nat → Nat) (d : Transition σ) (indices : List Nat)
    (pb : PERBuffer σ) (pw : ℚ → ℚ) (picks : Nat → Nat)
    (pd : Transition σ) (pindices : List Nat) :
    (b.get_sample_indices_run rands).2 = b ∧
    (b.get_sample_run d indices).2 = b ∧
    (pb.get_sample_indices_run pw picks).2 = pb ∧
    (pb.get_sample_run pd pindices).2 = pb :=
  ⟨rfl, rfl, rfl, rfl⟩

/-- C5: prioritized `get_sample_indices` computes the spec's categorical
weights `priority^alpha / sum`, draws `batch_size` pairwise-distinct
indices of stored transitions, and fails exactly when
`batch_size > current_size`. -/
theorem per_get_sample_indices_spec {σ : Type} (b : PERBuffer σ)
    (pw : ℚ → ℚ) (picks : Nat → Nat)
    (hcs : b.current_size = b.buffer.length) :
    ((b.get_sample_indices_run pw picks).1.isSome ↔
      b.batch_size ≤ b.current_size) ∧
    (∀ res, (b.get_sample_indices_run pw picks).1 = some res →
      res.length = b.batch_size ∧ res.Nodup ∧
      ∀ i ∈ res, i < b.current_size) ∧
    (∀ i, i < b.priorities.length →
      (per_probs pw b.priorities).getD i 0 = spec_prob pw b.priorities i) := by
  have hrun : (b.get_sample_indices_run pw picks).1 =
      choiceNoReplace b.buffer.length b.batch_size picks := rfl
  refine ⟨?_, ?_, fun i hi => per_probs_getD pw b.priorities i hi⟩
  · rw [hrun, choiceNoReplace, hcs]
    by_cases hb : b.batch_size ≤ b.buffer.length
    · simp [hb]
    · simp [hb]
  · intro res hres
    rw [hrun] at hres
    unfold choiceNoReplace at hres
    split_ifs at hres with hk
    · have hres2 := Option.some.inj hres
      refine ⟨?_, ?_, ?_⟩
      · rw [← hres2]
        exact pickSeq_length _ _ _ _ (by simpa using hk)
      · rw [← hres2]
        exact pickSeq_nodup _ _ _ _ (List.nodup_range _)
      · intro i hi
        rw [← hres2] at hi
        have h2 := pickSeq_subset _ _ _ _ i hi
        rw [hcs]
        exact List.mem_range.1 h2

/-- Witness for C5 on a full capacity-2 buffer with uniform priorities:
sampling succeeds since `batch_size = 1 ≤ current_size = 2`, and the
normalized weight of index 0 matches the spec formula. -/
theorem per_get_sample_indices_spec_witness :
    ((exPER5.get_sample_indices_run (fun q => q) (fun _ => 0)).1.isSome ↔
      exPER5.batch_size ≤ exPER5.current_size) ∧
    (per_probs (fun q => q) exPER5.priorities).getD 0 0 =
      spec_prob (fun q => q) exPER5.priorities 0 := by
  have h := per_get_sample_indices_spec exPER5 (fun q => q) (fun _ => 0)
    (by decide)
  exact ⟨h.1, h.2.2 0 (by decide)⟩

lemma zipWith3_getD {α β γ δ : Type} (f : α → β → γ → δ)
    (as : List α) (bs : List β) (cs : List γ) (i : Nat)
    (d1 : α) (d2 : β) (d3 : γ) (d4 : δ) (hi : i < as.length)
    (h2 : bs.length = as.length) (h3 : cs.length = as.length) :
    (zipWith3 f as bs cs).getD i d4 =
      f (as.getD i d1) (bs.getD i d2) (cs.getD i d3) := by
  induction as generalizing bs cs i with
  | nil => cases hi
  | cons a as ih =>
    cases bs with
    | nil => cases h2
    | cons b bs =>
      cases cs with
      | nil => cases h3
      | cons c cs =>
        cases i with
        | zero => rfl
        | succ i =>
          exact ih bs cs i (Nat.lt_of_succ_lt_succ hi)
            (by simpa using h2) (by simpa using h3)

/-- C4: the learner computes the bootstrapped target
`y = reward + gamma * next_q_max * (1 - done)` samplewise, where
`next_q_max` is the maximum of the frozen target network's row on the
sample's next state; for a terminal sample (`done = true`) the target
equals exactly the reward, independent of the next-state values. -/
theorem td_target_terminal {σ : Type} (gamma : ℚ) (tnet : σ → List ℚ)
    (rewards : List ℚ) (dones : List Bool) (new_states : List σ)
    (s0 : σ) (i : Nat) (hi : i < rewards.length)
    (h2 : dones.length = rewards.length)
    (h3 : new_states.length = rewards.length) :
    (expected_q_batch gamma tnet rewards dones new_states).getD i 0 =
      rewards.getD i 0 + gamma * npMax (tnet (new_states.getD i s0)) *
        (1 - b2q (dones.getD i false)) ∧
    (dones.getD i false = true →
      (expected_q_batch gamma tnet rewards dones new_states).getD i 0 =
        rewards.getD i 0) ∧
    (∀ ns : σ, expected_q gamma (tnet ns) (rewards.getD i 0) true =
      rewards.getD i 0) := by
  have hmain : (expected_q_batch gamma tnet rewards dones new_states).getD i 0
      = expected_q gamma (tnet (new_states.getD i s0)) (rewards.getD i 0)
        (dones.getD i false) :=
    zipWith3_getD (fun r d ns => expected_q gamma (tnet ns) r d)
      rewards dones new_states i 0 false s0 0 hi h2 h3
  refine ⟨hmain, ?_, ?_⟩
  · intro hd
    rw [hmain, hd]
    simp [expected_q, b2q]
  · intro ns
    simp [expected_q, b2q]

/-- Witness for C4: a terminal one-sample batch with junk next-state
values `[5, 7]` yields a target equal to the reward 2. -/
theorem td_target_terminal_witness :
    (expected_q_batch 1 (fun _ : Unit => [5, 7]) [2] [true] [()]).getD 0 0
      = 2 := by
  have h := td_target_terminal 1 (fun _ : Unit => [5, 7]) [2] [true] [()]
    () 0 (by decide) (by decide) (by decide)
  exact h.2.1 (by decide)

/-- C8: `get_eps` is a pure piecewise-linear function of the step: the
first segment `epsilon_start → epsilon_end` starts at
`replay_start_size`, before it the value is held at the first segment's
start value `epsilon_start`, on each segment the value is the linear
interpolation of the segment's endpoint values, and at or after the last
segment's end step (`decay_steps * terminal_frame_factor`) it is clamped
to the last end value `terminal_eps`. -/
theorem eps_schedule_piecewise
    (epsStart epsEnd decaySteps rss terminalEps tff step : ℚ)
    (h1 : rss ≤ decaySteps) (h2 : decaySteps ≤ decaySteps * tff) :
    (step < rss →
      get_eps epsStart epsEnd decaySteps rss terminalEps tff step = epsStart) ∧
    (rss ≤ step → step < decaySteps →
      get_eps epsStart epsEnd decaySteps rss terminalEps tff step =
        lerp epsStart epsEnd rss decaySteps step) ∧
    (decaySteps ≤ step → step < decaySteps * tff →
      get_eps epsStart epsEnd decaySteps rss terminalEps tff step =
        lerp epsEnd terminalEps decaySteps (decaySteps * tff) step) ∧
    (decaySteps * tff ≤ step →
      get_eps epsStart epsEnd decaySteps rss terminalEps tff step =
        terminalEps) := by
  refine ⟨?_, ?_, ?_, ?_⟩
  · intro h
    simp [get_eps, h]
  · intro ha hb
    simp only [get_eps]
    rw [if_neg (not_lt.2 ha), if_pos hb]
    unfold lerp
    ring
  · intro ha hb
    simp only [get_eps]
    rw [if_neg (not_lt.2 (le_trans h1 ha)), if_neg (not_lt.2 ha), if_pos hb]
    unfold lerp
    ring
  · intro ha
    simp only [get_eps]
    rw [if_neg (not_lt.2 (le_trans h1 (le_trans h2 ha))),
      if_neg (not_lt.2 (le_trans h2 ha)), if_neg (not_lt.2 ha)]

/-- Witness for C8 at the dqn_v2 agent constants
(`epsilon_start = 1`, `epsilon_end = 0.02`, `decay_steps = 10^6`,
`replay_start_size = 250`, `terminal_eps = 0.01`, factor 25): the value
is held at 1 during warm-up and clamped to 0.01 past the terminal
frame. -/
theorem eps_schedule_piecewise_witness :
    get_eps 1 (1/50) 1000000 250 (1/100) 25 100 = 1 ∧
    get_eps 1 (1/50) 1000000 250 (1/100) 25 30000000 = 1/100 := by
  have ha := eps_schedule_piecewise 1 (1/50) 1000000 250 (1/100) 25 100
    (by norm_num) (by norm_num)
  have hb := eps_schedule_piecewise 1 (1/50) 1000000 250 (1/100) 25 30000000
    (by norm_num) (by norm_num)
  exact ⟨ha.1 (by norm_num), hb.2.2.2 (by norm_num)⟩

lemma foldl_trainIter_total_step {σ : Type} (ts : List (Transition σ))
    (s : TrainState σ) :
    (ts.foldl (fun s t => (trainIter s t).1) s).total_step =
      s.total_step + ts.length := by
  induction ts generalizing s with
  | nil => simp
  | cons t ts ih =>
    rw [List.foldl_cons, ih]
    show (s.total_step + 1) + ts.length = s.total_step + (t :: ts).length
    rw [List.length_cons]
    omega

lemma foldl_trainIter_size {σ : Type} (ts : List (Transition σ))
    (s : TrainState σ) :
    (ts.foldl (fun s t => (trainIter s t).1) s).memory.size =
      s.memory.size := by
  induction ts generalizing s with
  | nil => rfl
  | cons t ts ih =>
    rw [List.foldl_cons, ih]
    rfl

lemma foldl_trainIter_memLen {σ : Type} (ts : List (Transition σ))
    (s : TrainState σ) (hsz : s.memory.size = memory_size)
    (hlen : s.memory.buffer.length ≤ memory_size) :
    (ts.foldl (fun s t => (trainIter s t).1) s).memory.buffer.length =
      min (s.memory.buffer.length + ts.length) memory_size := by
  induction ts generalizing s with
  | nil =>
    simp only [List.foldl_nil, List.length_nil, Nat.add_zero]
    omega
  | cons t ts ih =>
    have hstep : ((trainIter s t).1).memory.buffer.length =
        min (s.memory.buffer.length + 1) memory_size := by
      show (dequeAppend s.memory.size s.memory.buffer t).length = _
      rw [dequeAppend_length, hsz]
    have hsz2 : ((trainIter s t).1).memory.size = memory_size := hsz
    have hlen2 : ((trainIter s t).1).memory.buffer.length ≤ memory_size := by
      rw [hstep]; omega
    rw [List.foldl_cons, ih ((trainIter s t).1) hsz2 hlen2, hstep,
      List.length_cons]
    omega

lemma trainRun_total_step (σ : Type) (ts : List (Transition σ)) :
    (trainRun ts).total_step = ts.length := by
  have h := foldl_trainIter_total_step ts (TrainState.start σ)
  simpa [trainRun, TrainState.start] using h

lemma trainRun_memLen (σ : Type) (ts : List (Transition σ)) :
    (trainRun ts).memory.buffer.length = min ts.length memory_size := by
  have h := foldl_trainIter_memLen ts (TrainState.start σ) rfl (Nat.zero_le _)
  simpa [trainRun, TrainState.start, ExperienceReplay.init] using h

set_option maxRecDepth 4000 in
/-- C7 counterexample: run the training loop for 253 iterations; in the
last of these (at `total_step = 252`) the learner guard fires, yet the
replay memory — capacity 200, which is below `replay_start_size = 250` —
holds only 200 transitions at that moment.  The gate of dqn_v2.py line
167 is on the step counter, not on the buffer occupancy. -/
theorem train_gate_counterexample :
    (trainIter (trainRun (List.replicate 252 exT)) exT).2.1 = true ∧
    ((trainIter (trainRun (List.replicate 252 exT)) exT).1).memory.buffer.length
      = 200 ∧
    200 < replay_start_size := by
  have hsz : (trainRun (List.replicate 252 exT)).memory.size = memory_size :=
    foldl_trainIter_size (List.replicate 252 exT) (TrainState.start Unit)
  have hlen : (trainRun (List.replicate 252 exT)).memory.buffer.length = 200 := by
    have h := trainRun_memLen Unit (List.replicate 252 exT)
    rw [List.length_replicate] at h
    rw [h]
    have hm : memory_size = 200 := rfl
    rw [hm]
    omega
  refine ⟨?_, ?_, by decide⟩
  · show learnFires (trainRun (List.replicate 252 exT)).total_step = true
    rw [trainRun_total_step, List.length_replicate]
    decide
  · show (dequeAppend (trainRun (List.replicate 252 exT)).memory.size
      (trainRun (List.replicate 252 exT)).memory.buffer exT).length = 200
    rw [dequeAppend_length, hlen, hsz]
    have hm : memory_size = 200 := rfl
    rw [hm]
    omega

lemma learnFires_iff (t : Nat) :
    learnFires t = true ↔ (t % update_frequency = 0 ∧ replay_start_size < t) := by
  simp [learnFires, Bool.and_eq_true]

lemma syncFires_iff (t : Nat) :
    syncFires t = true ↔
      (t % target_network_update_freq = 0 ∧ replay_start_size < t) := by
  simp [syncFires, Bool.and_eq_true]

/-- C7 (amended): LEARN fires exactly at the steps with
`total_step % update_frequency = 0` and `total_step > replay_start_size`
— a strict step-count gate, not a buffer-occupancy gate — hence exactly
every `update_frequency` steps once past the gate; SYNC behaves the same
with period `target_network_update_freq`; neither fires at steps
`≤ replay_start_size`. -/
theorem train_cadence (t d : Nat) :
    (t ≤ replay_start_size → learnFires t = false ∧ syncFires t = false) ∧
    (replay_start_size < t →
      (learnFires t = true ↔ t % update_frequency = 0)) ∧
    (replay_start_size < t →
      (syncFires t = true ↔ t % target_network_update_freq = 0)) ∧
    (learnFires t = true → learnFires (t + update_frequency) = true) ∧
    (learnFires t = true → 0 < d → d < update_frequency →
      learnFires (t + d) = false) ∧
    (syncFires t = true → syncFires (t + target_network_update_freq) = true) ∧
    (syncFires t = true → 0 < d → d < target_network_update_freq →
      syncFires (t + d) = false) := by
  have hl := learnFires_iff
  have hs := syncFires_iff
  have hu : update_frequency = 4 := rfl
  have ht : target_network_update_freq = 1000 := rfl
  have hr : replay_start_size = 250 := rfl
  refine ⟨?_, ?_, ?_, ?_, ?_, ?_, ?_⟩
  · intro h
    constructor
    · rw [Bool.eq_false_iff]
      intro htrue
      rcases (hl t).1 htrue with ⟨h1, h2⟩
      omega
    · rw [Bool.eq_false_iff]
      intro htrue
      rcases (hs t).1 htrue with ⟨h1, h2⟩
      omega
  · intro h
    rw [hl t]
    exact ⟨fun hh => hh.1, fun hh => ⟨hh, h⟩⟩
  · intro h
    rw [hs t]
    exact ⟨fun hh => hh.1, fun hh => ⟨hh, h⟩⟩
  · intro h
    rcases (hl t).1 h with ⟨h1, h2⟩
    rw [hl]
    rw [hu] at h1 ⊢
    rw [hr] at h2 ⊢
    omega
  · intro h hd1 hd2
    rcases (hl t).1 h with ⟨h1, h2⟩
    rw [Bool.eq_false_iff]
    intro htrue
    rcases (hl (t + d)).1 htrue with ⟨h3, h4⟩
    rw [hu] at h1 h3 hd2
    omega
  · intro h
    rcases (hs t).1 h with ⟨h1, h2⟩
    rw [hs]
    rw [ht] at h1 ⊢
    rw [hr] at h2 ⊢
    omega
  · intro h hd1 hd2
    rcases (hs t).1 h with ⟨h1, h2⟩
    rw [Bool.eq_false_iff]
    intro htrue
    rcases (hs (t + d)).1 htrue with ⟨h3, h4⟩
    rw [ht] at h1 h3 hd2
    omega

/-- Witness for the amended C7: from the fire at step 252, the next
learner update is exactly 4 steps later and no update happens in
between. -/
theorem train_cadence_witness :
    learnFires 256 = true ∧ learnFires 254 = false := by
  have h := train_cadence 252 2
  have h252 : learnFires 252 = true := (h.2.1 (by decide)).2 (by decide)
  exact ⟨h.2.2.2.1 h252, h.2.2.2.2.1 h252 (by decide) (by decide)⟩

end DeepAgent
